import Mathlib

/-!
Verification development for the `divider.py` image pipeline.

The program loads a 3-channel image, masks a fixed border color range,
dilates the mask with a 15 by 15 rectangular structuring element, recolors
the masked pixels white, converts to grayscale, applies an Otsu threshold,
performs a 17 by 17 morphological open, inverts the result, writes it to
disk, and finally displays it while blocking on a key press.

Images are embedded as a width, a height and a total pixel function; all
pipeline stages are translated stage by stage from the source.  Morphology
uses the clipped neighborhood (out-of-bounds samples are neutral for the
running max or min, matching the default border handling of the library
calls in the source).
-/

namespace Divider

/-- One 8-bit BGR pixel (the native channel order of the loaded image). -/
structure Pixel where
  b : Nat
  g : Nat
  r : Nat
deriving DecidableEq, Repr

/-- A 3-channel image: fixed dimensions plus a pixel function indexed by
row then column.  Values outside the bounds are irrelevant to the
pipeline (every stage only samples in-bounds coordinates). -/
@[ext] structure Img where
  width : Nat
  height : Nat
  pix : Nat → Nat → Pixel

/-- A single-channel image (grayscale image or mask). -/
@[ext] structure Gray where
  width : Nat
  height : Nat
  pix : Nat → Nat → Nat

/-- Lower bound of the border color range, `lower = (0, 80, 110)`. -/
def lower : Pixel := ⟨0, 80, 110⟩

/-- Upper bound of the border color range, `upper = (0, 120, 150)`. -/
def upper : Pixel := ⟨0, 120, 150⟩

/-- Per-channel inclusive range test used by `cv2.inRange`. -/
def pixelInRange (p : Pixel) : Prop :=
  lower.b ≤ p.b ∧ p.b ≤ upper.b ∧ lower.g ≤ p.g ∧ p.g ≤ upper.g ∧
    lower.r ≤ p.r ∧ p.r ≤ upper.r

instance (p : Pixel) : Decidable (pixelInRange p) :=
  inferInstanceAs (Decidable (lower.b ≤ p.b ∧ p.b ≤ upper.b ∧
    lower.g ≤ p.g ∧ p.g ≤ upper.g ∧ lower.r ≤ p.r ∧ p.r ≤ upper.r))

/-- `mask = cv2.inRange(img, lower, upper)`: 255 where every channel lies
within the inclusive bounds, 0 elsewhere. -/
def inRangeMask (img : Img) : Gray :=
  ⟨img.width, img.height, fun y x => if pixelInRange (img.pix y x) then 255 else 0⟩

/-- In-bounds coordinates within Chebyshev radius `r` of `(y, x)`: the
window of a `(2r+1)` by `(2r+1)` rectangular structuring element anchored
at its center, clipped to the image. -/
def nbhd (h w y x r : Nat) : List (Nat × Nat) :=
  ((List.range h).filter (fun ny => decide (y ≤ ny + r ∧ ny ≤ y + r))).flatMap
    (fun ny =>
      ((List.range w).filter (fun nx => decide (x ≤ nx + r ∧ nx ≤ x + r))).map
        (fun nx => (ny, nx)))

/-- Grayscale dilation with a square structuring element of radius `r`:
pointwise maximum over the clipped window (out-of-bounds samples are
neutral for the maximum). -/
def morphDilate (r : Nat) (m : Gray) : Gray :=
  ⟨m.width, m.height, fun y x =>
    ((nbhd m.height m.width y x r).map (fun p => m.pix p.1 p.2)).foldl max 0⟩

/-- Grayscale erosion with a square structuring element of radius `r`:
pointwise minimum over the clipped window (out-of-bounds samples are
neutral for the minimum). -/
def morphErode (r : Nat) (m : Gray) : Gray :=
  ⟨m.width, m.height, fun y x =>
    ((nbhd m.height m.width y x r).map (fun p => m.pix p.1 p.2)).foldl min 255⟩

/-- `img[mask==255] = (255,255,255)`: overwrite every pixel selected by the
mask with pure white, leave the rest unchanged. -/
def recolor (img : Img) (m : Gray) : Img :=
  ⟨img.width, img.height, fun y x =>
    if m.pix y x = 255 then ⟨255, 255, 255⟩ else img.pix y x⟩

/-- `cv2.cvtColor(img, cv2.COLOR_BGR2GRAY)`: the fixed-point BT.601 luma
combination used by the library, `(b*1868 + g*9617 + r*4899 + 8192) / 2^14`. -/
def bgr2gray (img : Img) : Gray :=
  ⟨img.width, img.height, fun y x =>
    let p := img.pix y x
    (p.b * 1868 + p.g * 9617 + p.r * 4899 + 8192) / 16384⟩

/-- All in-bounds samples of a single-channel image, row-major. -/
def grayValues (g : Gray) : List Nat :=
  (List.range g.height).flatMap (fun y => (List.range g.width).map (fun x => g.pix y x))

/-- Histogram count of sample value `i`. -/
def hist (g : Gray) (i : Nat) : Nat := (grayValues g).count i

/-- Pixels with value at most `t` (weight of the low class at split `t`). -/
def histW0 (g : Gray) (t : Nat) : Nat := ((List.range (t + 1)).map (hist g)).sum

/-- Sum of values at most `t` weighted by their counts. -/
def histS0 (g : Gray) (t : Nat) : Nat :=
  ((List.range (t + 1)).map (fun i => i * hist g i)).sum

/-- Numerator of the between-class variance at split `t`:
`sigma(t) = (s0*N - S*w0)^2 / (w0*w1)` where `N` is the pixel count, `S`
the total sample sum, and `w0`, `s0` the low-class weight and sum.  The
value is kept as an exact integer fraction `sigmaNum / sigmaDen`. -/
def sigmaNum (g : Gray) (t : Nat) : Nat :=
  let n : Int := (grayValues g).length
  let s : Int := (grayValues g).sum
  let a : Int := (histS0 g t : Int) * n - s * (histW0 g t : Int)
  (a * a).toNat

/-- Denominator of the between-class variance at split `t`: `w0 * w1`,
zero when one of the two classes is empty. -/
def sigmaDen (g : Gray) (t : Nat) : Nat :=
  histW0 g t * ((grayValues g).length - histW0 g t)

/-- Otsu threshold selection: scan every split `0..255`, keep the first
split maximizing the between-class variance, skipping splits where one
class is empty.  Fractions are compared exactly by cross-multiplication. -/
def otsu (g : Gray) : Nat :=
  ((List.range 256).foldl
    (fun acc i =>
      let n := sigmaNum g i
      let d := sigmaDen g i
      if 0 < d ∧ acc.2.1 * d < acc.2.2 * n then (i, n, d) else acc)
    (0, 0, 1)).1

/-- `cv2.threshold(gray, 0, 255, cv2.THRESH_OTSU)[1]`: binarize against
the automatically selected threshold, 255 strictly above it, 0 otherwise. -/
def thresholdOtsu (g : Gray) : Gray :=
  let t := otsu g
  ⟨g.width, g.height, fun y x => if t < g.pix y x then 255 else 0⟩

/-- `morph = 255 - morph`: pointwise inversion. -/
def invert (g : Gray) : Gray :=
  ⟨g.width, g.height, fun y x => 255 - g.pix y x⟩

/-- The pre-dilation border mask of line 12 of the source. -/
def borderMask (img : Img) : Gray := inRangeMask img

/-- The mask after the 15 by 15 dilation (radius 7) of line 16. -/
def dilatedMask (img : Img) : Gray := morphDilate 7 (borderMask img)

/-- The image after the in-place recoloring of line 19. -/
def recolored (img : Img) : Img := recolor img (dilatedMask img)

/-- The grayscale conversion of line 22. -/
def grayImage (img : Img) : Gray := bgr2gray (recolored img)

/-- The Otsu-thresholded image of line 25. -/
def threshImage (img : Img) : Gray := thresholdOtsu (grayImage img)

/-- The 17 by 17 morphological open (radius 8) of line 29: erosion then
dilation. -/
def openedImage (img : Img) : Gray := morphDilate 8 (morphErode 8 (threshImage img))

/-- The final output of line 30, saved to `morph.jpg`. -/
def outputImage (img : Img) : Gray := invert (openedImage img)

/-- Strictly outside the inclusive border color range on every one of the
three channels. -/
def strictlyOutsideAll (p : Pixel) : Prop :=
  (p.b < lower.b ∨ upper.b < p.b) ∧ (p.g < lower.g ∨ upper.g < p.g) ∧
    (p.r < lower.r ∨ upper.r < p.r)

instance (p : Pixel) : Decidable (strictlyOutsideAll p) :=
  inferInstanceAs (Decidable ((p.b < lower.b ∨ upper.b < p.b) ∧
    (p.g < lower.g ∨ upper.g < p.g) ∧ (p.r < lower.r ∨ upper.r < p.r)))

/-- The observable effects of one run of the script, in program order. -/
inductive Event where
  | readInput
  | writeOutput
  | showWindow
  | waitKey
deriving DecidableEq, Repr

/-- The effects a run performs, in order.  `cv2.imread` (line 5) yields an
image on success and a null object when the path is missing or unreadable;
in the failure case the very next library call, `cv2.inRange` on line 12,
raises an unhandled fault on the null object, so the run terminates before
any later effect — in particular before the `cv2.imwrite` of line 33.  On
the success path the write of line 33 precedes the display of line 35 and
the blocking key wait of line 36. -/
def scriptEvents (input : Option Img) : List Event :=
  match input with
  | none => [Event.readInput]
  | some _ => [Event.readInput, Event.writeOutput, Event.showWindow, Event.waitKey]

/-- The image the run persists to `morph.jpg`, when it reaches line 33. -/
def scriptOutput (input : Option Img) : Option Gray :=
  match input with
  | none => none
  | some img => some (outputImage img)

/-- A 1 by 2 test image: the left pixel has the border color `(0,100,130)`,
the right pixel `(50,50,50)` is strictly outside the range on every
channel. -/
def imgPair : Img :=
  ⟨2, 1, fun _ x => if x = 0 then ⟨0, 100, 130⟩ else ⟨50, 50, 50⟩⟩

/-- A 1 by 1 test image whose only pixel `(50,50,50)` is outside the border
color range. -/
def imgPlain : Img := ⟨1, 1, fun _ _ => ⟨50, 50, 50⟩⟩

/-! Helper lemmas on folded maxima and minima and on window membership. -/

theorem le_foldl_max_init (l : List Nat) (a : Nat) : a ≤ l.foldl max a := by
  induction l generalizing a with
  | nil => exact Nat.le_refl a
  | cons b t ih => exact Nat.le_trans (Nat.le_max_left a b) (ih (max a b))

theorem le_foldl_max {l : List Nat} {a v : Nat} (hv : v ∈ l) : v ≤ l.foldl max a := by
  induction l generalizing a with
  | nil => cases hv
  | cons b t ih =>
    rcases List.mem_cons.mp hv with h | h
    · subst h
      exact Nat.le_trans (Nat.le_max_right a v) (le_foldl_max_init t (max a v))
    · exact ih h

theorem foldl_max_le {l : List Nat} {a c : Nat} (ha : a ≤ c)
    (h : ∀ v ∈ l, v ≤ c) : l.foldl max a ≤ c := by
  induction l generalizing a with
  | nil => exact ha
  | cons b t ih =>
    exact ih (Nat.max_le.mpr ⟨ha, h b (List.mem_cons_self b t)⟩)
      (fun v hv => h v (List.mem_cons_of_mem _ hv))

theorem foldl_max_binary {l : List Nat} {a : Nat} (ha : a = 0 ∨ a = 255)
    (h : ∀ v ∈ l, v = 0 ∨ v = 255) :
    l.foldl max a = 0 ∨ l.foldl max a = 255 := by
  induction l generalizing a with
  | nil => exact ha
  | cons b t ih =>
    refine ih ?_ (fun v hv => h v (List.mem_cons_of_mem _ hv))
    have hb := h b (List.mem_cons_self b t)
    omega

theorem foldl_min_binary {l : List Nat} {a : Nat} (ha : a = 0 ∨ a = 255)
    (h : ∀ v ∈ l, v = 0 ∨ v = 255) :
    l.foldl min a = 0 ∨ l.foldl min a = 255 := by
  induction l generalizing a with
  | nil => exact ha
  | cons b t ih =>
    refine ih ?_ (fun v hv => h v (List.mem_cons_of_mem _ hv))
    have hb := h b (List.mem_cons_self b t)
    omega

theorem mem_nbhd {h w y x r : Nat} {p : Nat × Nat} :
    p ∈ nbhd h w y x r ↔
      p.1 < h ∧ p.2 < w ∧ y ≤ p.1 + r ∧ p.1 ≤ y + r ∧ x ≤ p.2 + r ∧ p.2 ≤ x + r := by
  obtain ⟨ny, nx⟩ := p
  simp only [nbhd, List.mem_flatMap, List.mem_map, List.mem_filter, List.mem_range,
    decide_eq_true_eq]
  constructor
  · rintro ⟨a, ⟨ha, hya, hay⟩, b, ⟨hb, hxb, hbx⟩, heq⟩
    cases heq
    exact ⟨ha, hb, hya, hay, hxb, hbx⟩
  · rintro ⟨h1, h2, h3, h4, h5, h6⟩
    exact ⟨ny, ⟨h1, h3, h4⟩, nx, ⟨h2, h5, h6⟩, rfl⟩

theorem self_mem_nbhd {h w y x : Nat} (r : Nat) (hy : y < h) (hx : x < w) :
    (y, x) ∈ nbhd h w y x r :=
  mem_nbhd.mpr ⟨hy, hx, Nat.le_add_right y r, Nat.le_add_right y r,
    Nat.le_add_right x r, Nat.le_add_right x r⟩

theorem threshImage_binary (img : Img) (y x : Nat) :
    (threshImage img).pix y x = 0 ∨ (threshImage img).pix y x = 255 := by
  unfold threshImage thresholdOtsu
  dsimp
  split
  · exact Or.inr rfl
  · exact Or.inl rfl

/-! The claim theorems. -/

/-- C1: every derived image and mask of the pipeline — border mask, dilated
mask, recolored image, grayscale, thresholded image, opened image and the
inverted output — has exactly the width and height of the loaded input; in
particular the saved output has the input's dimensions. -/
theorem C1_dimensions (img : Img) :
    (borderMask img).width = img.width ∧ (borderMask img).height = img.height ∧
    (dilatedMask img).width = img.width ∧ (dilatedMask img).height = img.height ∧
    (recolored img).width = img.width ∧ (recolored img).height = img.height ∧
    (grayImage img).width = img.width ∧ (grayImage img).height = img.height ∧
    (threshImage img).width = img.width ∧ (threshImage img).height = img.height ∧
    (openedImage img).width = img.width ∧ (openedImage img).height = img.height ∧
    (outputImage img).width = img.width ∧ (outputImage img).height = img.height :=
  ⟨rfl, rfl, rfl, rfl, rfl, rfl, rfl, rfl, rfl, rfl, rfl, rfl, rfl, rfl⟩

/-- C2 counterexample: the right pixel of `imgPair` is strictly outside the
border color range on all three channels, yet the border-isolation stage
recolors it, because the 15 by 15 dilation spreads the mask from the
in-range pixel next to it. -/
theorem C2_counterexample :
    strictlyOutsideAll (imgPair.pix 0 1) ∧
      (recolored imgPair).pix 0 1 ≠ imgPair.pix 0 1 := by decide

/-- C2 (amended): a pixel in whose clipped 15 by 15 window no pixel has the
border color (itself included, so in particular it is outside the range) is
left unchanged by the in-range mask, the dilation and the recolor step. -/
theorem C2_outside_unchanged (img : Img) (y x : Nat)
    (hout : ∀ p ∈ nbhd img.height img.width y x 7, ¬ pixelInRange (img.pix p.1 p.2)) :
    (recolored img).pix y x = img.pix y x := by
  have hmask : (dilatedMask img).pix y x = 0 := by
    unfold dilatedMask morphDilate
    dsimp
    refine Nat.le_antisymm (foldl_max_le (Nat.le_refl 0) ?_) (Nat.zero_le _)
    intro v hv
    rcases List.mem_map.mp hv with ⟨p, hp, rfl⟩
    have hn := hout p hp
    unfold borderMask inRangeMask
    dsimp
    rw [if_neg hn]
  unfold recolored recolor
  dsimp
  unfold recolored at hmask
  rw [hmask]
  simp

/-- Witness for the amended C2 at a concrete image and pixel. -/
theorem C2_outside_unchanged_witness :
    (∀ p ∈ nbhd imgPlain.height imgPlain.width 0 0 7,
        ¬ pixelInRange (imgPlain.pix p.1 p.2)) ∧
      (recolored imgPlain).pix 0 0 = imgPlain.pix 0 0 :=
  ⟨by decide, C2_outside_unchanged imgPlain 0 0 (by decide)⟩

/-- C3: dilation is extensive — every in-bounds pixel set to 255 in the
pre-dilation border mask is 255 in the dilated mask. -/
theorem C3_dilation_superset (img : Img) (y x : Nat)
    (hy : y < img.height) (hx : x < img.width)
    (h : (borderMask img).pix y x = 255) :
    (dilatedMask img).pix y x = 255 := by
  unfold dilatedMask morphDilate
  dsimp
  refine Nat.le_antisymm (foldl_max_le (Nat.zero_le 255) ?_) ?_
  · intro v hv
    rcases List.mem_map.mp hv with ⟨p, hp, rfl⟩
    unfold borderMask inRangeMask
    dsimp
    split
    · exact Nat.le_refl 255
    · exact Nat.zero_le 255
  · have hmem : (y, x) ∈ nbhd (borderMask img).height (borderMask img).width y x 7 :=
      self_mem_nbhd 7 hy hx
    have hvm : (borderMask img).pix y x ∈
        (nbhd (borderMask img).height (borderMask img).width y x 7).map
          (fun p => (borderMask img).pix p.1 p.2) :=
      List.mem_map.mpr ⟨(y, x), hmem, rfl⟩
    have hle := le_foldl_max (a := 0) hvm
    rw [h] at hle
    exact hle

/-- Witness for C3 at a concrete image and pixel. -/
theorem C3_dilation_superset_witness :
    (0 < imgPair.height ∧ 0 < imgPair.width ∧ (borderMask imgPair).pix 0 0 = 255) ∧
      (dilatedMask imgPair).pix 0 0 = 255 :=
  ⟨⟨by decide, by decide, by decide⟩,
    C3_dilation_superset imgPair 0 0 (by decide) (by decide) (by decide)⟩

/-- C4: at every pixel position the final output equals 255 minus the
result of the 17 by 17 morphological open of the thresholded image. -/
theorem C4_inversion (img : Img) (y x : Nat) :
    (outputImage img).pix y x = 255 - (openedImage img).pix y x := rfl

/-- C5: when no in-bounds pixel of the input lies in the border color
range, the recolor step alters nothing (the recolored image is the input)
and the final output equals the inversion of the open of the Otsu
threshold of the grayscale of the unmodified input. -/
theorem C5_no_border_pixels (img : Img)
    (h : ∀ y, y < img.height → ∀ x, x < img.width → ¬ pixelInRange (img.pix y x)) :
    recolored img = img ∧
      outputImage img =
        invert (morphDilate 8 (morphErode 8 (thresholdOtsu (bgr2gray img)))) := by
  have hmask : ∀ y x, (dilatedMask img).pix y x = 0 := by
    intro y x
    unfold dilatedMask morphDilate
    dsimp
    refine Nat.le_antisymm (foldl_max_le (Nat.le_refl 0) ?_) (Nat.zero_le _)
    intro v hv
    rcases List.mem_map.mp hv with ⟨p, hp, rfl⟩
    have hb := mem_nbhd.mp hp
    have hn := h p.1 hb.1 p.2 hb.2.1
    unfold borderMask inRangeMask
    dsimp
    rw [if_neg hn]
  have hrec : recolored img = img := by
    refine Img.ext rfl rfl (funext fun y => funext fun x => ?_)
    show (recolored img).pix y x = img.pix y x
    unfold recolored recolor
    dsimp
    unfold recolored at hmask
    rw [hmask y x]
    simp
  refine ⟨hrec, ?_⟩
  unfold outputImage openedImage threshImage grayImage
  rw [hrec]

/-- Witness for C5 at a concrete image with no border-colored pixel. -/
theorem C5_no_border_pixels_witness :
    (∀ y, y < imgPlain.height → ∀ x, x < imgPlain.width →
        ¬ pixelInRange (imgPlain.pix y x)) ∧
      recolored imgPlain = imgPlain :=
  ⟨by decide, (C5_no_border_pixels imgPlain (by decide)).1⟩

/-- C6: the border mask is 255 at a position exactly when all three
channels of the pixel there lie within the inclusive bounds `lower` and
`upper` in native channel order, and every mask value is 0 or 255. -/
theorem C6_mask_characterization (img : Img) (y x : Nat) :
    ((borderMask img).pix y x = 255 ↔ pixelInRange (img.pix y x)) ∧
      ((borderMask img).pix y x = 0 ∨ (borderMask img).pix y x = 255) := by
  unfold borderMask inRangeMask
  dsimp
  constructor
  · constructor
    · intro h
      by_contra hc
      rw [if_neg hc] at h
      omega
    · intro h
      rw [if_pos h]
  · split
    · exact Or.inr rfl
    · exact Or.inl rfl

/-- C7: the recolor step overwrites every pixel selected by the dilated
mask with pure white and leaves every other pixel's channels unchanged. -/
theorem C7_recolor_white (img : Img) (y x : Nat) :
    ((dilatedMask img).pix y x = 255 →
        (recolored img).pix y x = ⟨255, 255, 255⟩) ∧
      ((dilatedMask img).pix y x ≠ 255 →
        (recolored img).pix y x = img.pix y x) := by
  unfold recolored recolor
  dsimp
  constructor
  · intro h
    rw [if_pos h]
  · intro h
    rw [if_neg h]

/-- Witness for C7: a selected pixel turns white, an unselected one keeps
its value. -/
theorem C7_recolor_white_witness :
    ((dilatedMask imgPair).pix 0 1 = 255 ∧
        (recolored imgPair).pix 0 1 = ⟨255, 255, 255⟩) ∧
      ((dilatedMask imgPlain).pix 0 0 ≠ 255 ∧
        (recolored imgPlain).pix 0 0 = imgPlain.pix 0 0) :=
  ⟨⟨by decide, (C7_recolor_white imgPair 0 1).1 (by decide)⟩,
    ⟨by decide, (C7_recolor_white imgPlain 0 0).2 (by decide)⟩⟩

/-- C8: when the thresholded image is binary (every in-bounds pixel 0 or
255), every in-bounds pixel of the final output after the open and the
inversion is 0 or 255. -/
theorem C8_binary_output (img : Img) (y x : Nat)
    (_hy : y < img.height) (_hx : x < img.width)
    (hb : ∀ i, i < img.height → ∀ j, j < img.width →
      (threshImage img).pix i j = 0 ∨ (threshImage img).pix i j = 255) :
    (outputImage img).pix y x = 0 ∨ (outputImage img).pix y x = 255 := by
  have herode : ∀ i j, (morphErode 8 (threshImage img)).pix i j = 0 ∨
      (morphErode 8 (threshImage img)).pix i j = 255 := by
    intro i j
    unfold morphErode
    dsimp
    refine foldl_min_binary (Or.inr rfl) ?_
    intro v hv
    rcases List.mem_map.mp hv with ⟨p, hp, rfl⟩
    have hpb := mem_nbhd.mp hp
    exact hb p.1 hpb.1 p.2 hpb.2.1
  have hopen : (openedImage img).pix y x = 0 ∨ (openedImage img).pix y x = 255 := by
    unfold openedImage morphDilate
    dsimp
    refine foldl_max_binary (Or.inl rfl) ?_
    intro v hv
    rcases List.mem_map.mp hv with ⟨p, hp, rfl⟩
    exact herode p.1 p.2
  unfold outputImage invert
  dsimp
  unfold outputImage at hopen
  rcases hopen with h | h
  · rw [h]
    exact Or.inr rfl
  · rw [h]
    exact Or.inl rfl

/-- Witness for C8 at a concrete image; binarity of the thresholded image
holds by construction of the threshold stage. -/
theorem C8_binary_output_witness :
    (0 < imgPlain.height ∧ 0 < imgPlain.width) ∧
      ((outputImage imgPlain).pix 0 0 = 0 ∨ (outputImage imgPlain).pix 0 0 = 255) :=
  ⟨⟨by decide, by decide⟩,
    C8_binary_output imgPlain 0 0 (by decide) (by decide)
      (fun i _ j _ => threshImage_binary imgPlain i j)⟩

/-- C9: on a failed load (`cv2.imread` yields a null object) the run raises
before the output stage: the write effect never occurs and no output image
is produced, so `morph.jpg` is never written. -/
theorem C9_load_failure_no_output :
    Event.writeOutput ∉ scriptEvents none ∧ scriptOutput none = none :=
  ⟨by decide, rfl⟩

/-- C10: on every successful run the write of `morph.jpg` occurs, and it
occurs strictly before the display and strictly before the blocking
key-press wait. -/
theorem C10_write_precedes_wait (img : Img) :
    Event.writeOutput ∈ scriptEvents (some img) ∧
      (scriptEvents (some img)).indexOf Event.writeOutput <
        (scriptEvents (some img)).indexOf Event.showWindow ∧
      (scriptEvents (some img)).indexOf Event.writeOutput <
        (scriptEvents (some img)).indexOf Event.waitKey := by
  simp only [scriptEvents]
  refine ⟨?_, ?_, ?_⟩ <;> decide

end Divider
